import Mathlib

set_option maxHeartbeats 1000000
set_option maxRecDepth 4000

/-!
Shallow embedding of the AutoProf pipeline orchestration engine
(src/Pipeline.py, class Isophote_Pipeline) and proofs of the frozen
claims about it.

Python dictionaries are embedded as association lists that preserve
insertion order and never hold a duplicate key (dictSet overwrites in
place, dictUpdate merges key by key), matching CPython dict semantics.
Dynamic Python values read from the options mapping are embedded as the
OptVal sum; the dynamically typed return value of a registered step
callable is embedded as the RetVal sum.  A raised Python exception that
is caught by the per-step handler shows up as Except.error from the
step callable; an exception that escapes Process_Image entirely is the
PyResult.exn constructor.  Wall-clock durations measured around a step
invocation are an external input and are supplied by an oracle mapping
the count of regular invocations made so far to the elapsed seconds of
the next one, as a rational number.
-/

/-- A loaded image payload: a rectangular grid of pixel values as read
by the external Read_Image collaborator. -/
abbrev Image := List (List Int)

/-- A dynamically typed Python value stored in an options or results
mapping: a string, an integer, a list, or any other object. -/
inductive OptVal where
  | str (s : String)
  | int (n : Int)
  | vlist (l : List OptVal)
  | other

/-- The options mapping passed to Process_Image and Process_List. -/
abbrev Options := List (String × OptVal)

/-- The dynamically typed value returned by a registered step callable:
a two element tuple (image, partial results), a string, or any other
value (such as None).  Unpacking a non tuple as a two element tuple in
the regular dispatch path raises, which the per step handler catches. -/
inductive RetVal where
  | pair (img : Image) (res : List (String × OptVal))
  | str (s : String)
  | otherV

/-- A registered step callable: receives the image, the accumulated
results and the options, and either returns a dynamic value or raises
(Except.error), in which case the per step handler catches it. -/
abbrev StepFunc := Image → List (String × OptVal) → Options → Except Unit RetVal

/-- The pipeline_methods registry: step name to callable. -/
abbrev Methods := List (String × StepFunc)

/-- The pipeline_steps mapping: sequence name to ordered step names. -/
abbrev SeqGraph := List (String × List String)

/-- The value Process_Image hands back to its caller: the timers
dictionary on success, or the integer sentinel 1 on failure. -/
inductive Outcome where
  | success (timers : List (String × Rat))
  | failure
deriving DecidableEq

/-- Distinguishes a normal Python return from an exception that escapes
the function (for Process_Image: a KeyError raised while evaluating the
while loop guard, outside the per step try block). -/
inductive PyResult (α : Type) where
  | ok (a : α)
  | exn
deriving DecidableEq

/-- Python dict lookup d[k], as first (and only) match in the
association list.  none embeds a KeyError / failed membership test. -/
def lookupD {α : Type} (d : List (String × α)) (k : String) : Option α :=
  match d with
  | [] => none
  | (k2, v) :: rest => if k2 = k then some v else lookupD rest k

/-- Python dict assignment d[k] = v: overwrite in place when the key is
present, append otherwise (CPython insertion order semantics). -/
def dictSet {α : Type} (d : List (String × α)) (k : String) (v : α) :
    List (String × α) :=
  match d with
  | [] => [(k, v)]
  | (k2, v2) :: rest =>
      if k2 = k then (k2, v) :: rest else (k2, v2) :: dictSet rest k v

/-- Python dict.update(new): merge the new entries key by key. -/
def dictUpdate {α : Type} (d new : List (String × α)) : List (String × α) :=
  new.foldl (fun acc kv => dictSet acc kv.1 kv.2) d

/-- Boolean membership of a string in a list of strings. -/
def memB (x : String) : List String → Bool
  | [] => false
  | y :: ys => if y = x then true else memB x ys

/-- Boolean membership of a character in a list of characters, used for
the Python substring tests on file paths. -/
def memC (c : Char) : List Char → Bool
  | [] => false
  | d :: ds => if d = c then true else memC c ds

/-- The number of distinct strings in a list, computed as the length of
the duplicate free sublist that keeps the last occurrence of each. -/
def dedupKeep : List String → List String
  | [] => []
  | x :: xs => if memB x xs then dedupKeep xs else x :: dedupKeep xs

/-- Whether the needle matches at the head of the haystack. -/
def leadMatch : List Char → List Char → Bool
  | [], _ => true
  | _ :: _, [] => false
  | a :: as, b :: bs => if a = b then leadMatch as bs else false

/-- Python substring containment (needle in haystack). -/
def occursIn (needle : List Char) : List Char → Bool
  | [] => leadMatch needle []
  | b :: bs => if leadMatch needle (b :: bs) then true else occursIn needle bs

/-- The characters of the literal tested by the dispatch condition
(the Python expression tests the substring branch in the step name). -/
def branchChars : List Char := "branch".data

/-- Index of the last occurrence of a character, as Python str.rfind
restricted to the case where the character is present. -/
def lastIdxOf (c : Char) : List Char → Option Nat
  | [] => none
  | x :: xs =>
      match lastIdxOf c xs with
      | some j => some (j + 1)
      | none => if x = c then some 0 else none

/-- Index of the first occurrence of a character. -/
def firstIdxOf (c : Char) : List Char → Option Nat
  | [] => none
  | x :: xs => if x = c then some 0 else (firstIdxOf c xs).map (· + 1)

/-- Python str.find(c, start): first index at or after start, else -1. -/
def pyFindFrom (c : Char) (l : List Char) (start : Nat) : Int :=
  match firstIdxOf c (l.drop start) with
  | some j => (start + j : Nat)
  | none => -1

/-- Python slice l[a:b] semantics: negative bounds count from the end,
bounds are clamped into the valid range. -/
def pySliceL {α : Type} (l : List α) (a b : Int) : List α :=
  let n : Int := l.length
  let a2 : Int := if a < 0 then max (n + a) 0 else min a n
  let b2 : Int := if b < 0 then max (n + b) 0 else min b n
  (l.take b2.toNat).drop a2.toNat

/-- The startat index of the name derivation in Process_Image: rfind of
the slash when one is present (the index of the slash itself), else 0. -/
def pyStartAt (l : List Char) : Nat :=
  if memC '/' l then (lastIdxOf '/' l).getD 0 else 0

/-- The job name Process_Image derives from the image file path when no
name option is supplied (src/Pipeline.py lines 116-118): the slice from
the startat index up to find of the first dot at or after it. -/
def deriveName (file : String) : String :=
  String.mk (pySliceL file.data (pyStartAt file.data : Nat)
    (pyFindFrom '.' file.data (pyStartAt file.data)))

/-- The Python test: the name key is present in options and its value
is a string. -/
def nameIsSet (options : Options) : Bool :=
  match lookupD options "name" with
  | some (.str _) => true
  | _ => false

/-- The options mapping as it stands after the name resolution block of
Process_Image: unchanged when a string valued name option is present,
else with the name key set to the derived file name. -/
def effOptions (options : Options) (file : String) : Options :=
  if nameIsSet options then options
  else dictSet options "name" (.str (deriveName file))

/-- All pixels of a row are zero. -/
def allZeroRow : List Int → Bool
  | [] => true
  | x :: xs => if x = 0 then allZeroRow xs else false

/-- All pixels of a grid are zero (np.all of an empty selection is
true, which the empty list case matches). -/
def allZeroImg : List (List Int) → Bool
  | [] => true
  | r :: rs => if allZeroRow r then allZeroImg rs else false

/-- The centered 20 by 20 pixel window tested by Process_Image
(src/Pipeline.py line 128): rows from h/2 - 10 to h/2 + 10 and columns
from w/2 - 10 to w/2 + 10, with numpy slice clamping, where w is the
length of the first row. -/
def centralWindow (d : Image) : Image :=
  let h : Int := d.length
  let w : Int := (d.headD []).length
  (pySliceL d (h / 2 - 10) (h / 2 + 10)).map
    (fun row => pySliceL row (w / 2 - 10) (w / 2 + 10))

/-- The empty frame test of Process_Image: the centered window is
uniformly zero. -/
def emptyChunk (d : Image) : Bool := allZeroImg (centralWindow d)

/-- The per image state machine state of the Process_Image while loop:
current sequence name (key), current index (step), the image being
threaded through, the accumulated results, the timers dictionary, and
two ghost components used only by the statements of theorems: the count
of regular invocations made so far (which also indexes the duration
oracle) and the ordered list of names of the regular steps executed. -/
structure EngState where
  key : String
  idx : Nat
  dat : Image
  results : List (String × OptVal)
  timers : List (String × Rat)
  regCount : Nat
  regNames : List String

/-- What one evaluation of the while loop guard plus body does. -/
inductive TickRes where
  | cont (s : EngState)
  | done (timers : List (String × Rat))
  | fail
  | exn

/-- One tick of the Process_Image state machine (src/Pipeline.py lines
141-160).  The sequence lookup in the while guard happens outside the
try block, so an unknown sequence name is an uncaught KeyError (exn);
everything inside the body is fault isolated (fail, the return 1 path).
A step whose name contains the substring branch is dispatched as a
branch step: its return value redirects when it is a string and merely
advances the index otherwise, touching neither results nor timers.  Any
other step is dispatched as regular: its return value is unpacked as a
pair (raising, hence fail, when it is not one), the partial results are
merged with overwrite, the elapsed time is recorded under the step
name, and the index advances. -/
def tick (methods : Methods) (steps : SeqGraph) (opts : Options)
    (dur : Nat → Rat) (s : EngState) : TickRes :=
  match lookupD steps s.key with
  | none => .exn
  | some sq =>
    match sq[s.idx]? with
    | none => .done s.timers
    | some name =>
      if occursIn branchChars name.data then
        match lookupD methods name with
        | none => .fail
        | some f =>
          match f s.dat s.results opts with
          | .error _ => .fail
          | .ok (.str q) => .cont { s with key := q, idx := 0 }
          | .ok _ => .cont { s with idx := s.idx + 1 }
      else
        match lookupD methods name with
        | none => .fail
        | some f =>
          match f s.dat s.results opts with
          | .error _ => .fail
          | .ok (.pair img res) =>
              .cont { s with
                        dat := img,
                        results := dictUpdate s.results res,
                        timers := dictSet s.timers name (dur s.regCount),
                        regCount := s.regCount + 1,
                        regNames := s.regNames ++ [name],
                        idx := s.idx + 1 }
          | .ok _ => .fail

/-- The while loop of Process_Image, run on bounded fuel (none embeds a
run that has not terminated within the bound).  Alongside the Python
observable result it carries out the ghost trace of executed regular
step names. -/
def runLoop (methods : Methods) (steps : SeqGraph) (opts : Options)
    (dur : Nat → Rat) : Nat → EngState → Option (PyResult Outcome × List String)
  | 0, _ => none
  | Nat.succ fuel, s =>
    match tick methods steps opts dur s with
    | .cont s2 => runLoop methods steps opts dur fuel s2
    | .done t => some (.ok (.success t), s.regNames)
    | .fail => some (.ok .failure, s.regNames)
    | .exn => some (.exn, s.regNames)

/-- The initial state of the while loop: sequence head, index 0, empty
results and timers. -/
def initState (d : Image) : EngState :=
  { key := "head", idx := 0, dat := d, results := [], timers := [],
    regCount := 0, regNames := [] }

/-- Process_Image (src/Pipeline.py lines 99-165).  The external
Read_Image collaborator is the ri parameter: Except.error embeds a
raised exception (caught, return 1), ok none a None payload, ok some d
a loaded grid.  Control flow embedded from the source: the name
resolution block runs first and reads the image file path outside any
try block, so a missing or non string image_file is an uncaught
exception there when no name option is set, and a caught one (return 1)
when a name is set and the failure happens inside the Read_Image try
block.  A None payload or a uniformly zero centered window returns the
failure sentinel before the loop starts; indexing row zero of an empty
grid raises outside the try block. -/
def Process_Image (methods : Methods) (steps : SeqGraph)
    (ri : String → Options → Except Unit (Option Image)) (dur : Nat → Rat)
    (fuel : Nat) (options : Options) : Option (PyResult Outcome) :=
  match lookupD options "image_file" with
  | some (.str file) =>
    match ri file (effOptions options file) with
    | .error _ => some (.ok .failure)
    | .ok none => some (.ok .failure)
    | .ok (some d) =>
      if d.isEmpty then some .exn
      else if emptyChunk d then some (.ok .failure)
      else (runLoop methods steps (effOptions options file) dur fuel
        (initState d)).map Prod.fst
  | _ => if nameIsSet options then some (.ok .failure) else some .exn

/-- The new_pipeline_steps argument of UpdatePipeline: either a flat
ordered list or a mapping of sequence name to list. -/
inductive NewSteps where
  | flat (l : List String)
  | dict (d : SeqGraph)
deriving DecidableEq

/-- UpdatePipeline (src/Pipeline.py lines 78-97).  Returns the possibly
raised assertion message together with the new registry and the new
sequence graph.  A falsy argument (absent, or an empty list or mapping)
is a no-op.  A truthy flat list is assigned to the head key only; a
truthy mapping replaces the whole graph, but only after the assertion
that it holds a head key, which when it fails leaves the graph
untouched.  The methods merge happens before the steps handling, as in
the source. -/
def UpdatePipeline (methods : Methods) (steps : SeqGraph)
    (nm : Option Methods) (ns : Option NewSteps) :
    Option String × Methods × SeqGraph :=
  let m2 : Methods :=
    match nm with
    | none => methods
    | some [] => methods
    | some new => dictUpdate methods new
  match ns with
  | none => (none, m2, steps)
  | some (.flat []) => (none, m2, steps)
  | some (.dict []) => (none, m2, steps)
  | some (.flat l) => (none, m2, dictSet steps "head" l)
  | some (.dict d) =>
      if (lookupD d "head").isSome then (none, m2, d)
      else (some "AssertionError", m2, steps)

/-- The built in forced head sequence assigned by Process_ConfigFile
(src/Pipeline.py lines 250-252). -/
def forcedSteps : List String :=
  ["background", "psf", "center forced", "isophoteinit",
   "isophotefit forced", "isophoteextract forced", "writeprof"]

/-- The default sequence graph set by the constructor. -/
def defaultSteps : SeqGraph :=
  [("head", ["background", "psf", "center", "isophoteinit",
             "isophotefit", "isophoteextract", "checkfit", "writeprof"])]

/-- Modelled from the spec: the forced built in head sequence exactly
as section 4.4 of the spec enumerates it (background, point spread
estimate, center finding forced, isophote fitting forced, extraction
forced, writer), named with the registry keys those steps carry in the
source registry.  This definition follows the words of the spec, for
comparison against forcedSteps which follows the source. -/
def specForcedHead : List String :=
  ["background", "psf", "center forced",
   "isophotefit forced", "isophoteextract forced", "writeprof"]

/-- The configuration attributes Process_ConfigFile reads that bear on
the pipeline composition: the process_mode string and the two optional
override attributes (none embeds an absent attribute, whose read raises
AttributeError, swallowed by the surrounding try blocks). -/
structure ConfigSteps where
  process_mode : String
  new_pipeline_methods : Option Methods
  new_pipeline_steps : Option NewSteps

/-- The pipeline composition part of Process_ConfigFile (src/Pipeline.py
lines 249-262): when the process_mode contains the substring forced the
forced flat list is installed first; then the user method override is
applied when the attribute exists; then the user steps override is
applied when the attribute exists, with any assertion failure swallowed
(try, except pass), which leaves the graph as it was. -/
def Process_ConfigFile_steps (methods : Methods) (steps : SeqGraph)
    (c : ConfigSteps) : Methods × SeqGraph :=
  let p1 : Methods × SeqGraph :=
    if occursIn "forced".data c.process_mode.data then
      (UpdatePipeline methods steps none (some (.flat forcedSteps))).2
    else (methods, steps)
  let p2 : Methods × SeqGraph :=
    match c.new_pipeline_methods with
    | none => p1
    | some nm => (UpdatePipeline p1.1 p1.2 (some nm) none).2
  match c.new_pipeline_steps with
  | none => p2
  | some ns => (UpdatePipeline p2.1 p2.2 none (some ns)).2

/-- Sequencing a list through an option valued function: none as soon
as one element maps to none. -/
def seqOpt {α β : Type} (f : α → Option β) : List α → Option (List β)
  | [] => some []
  | x :: xs =>
    match f x, seqOpt f xs with
    | some y, some ys => some (y :: ys)
    | _, _ => none

/-- Collects the normal returns of the per image jobs; none as soon as
one job escaped with an exception (which the pool re-raises in the
parent, making the whole batch call raise). -/
def collectOk : List (PyResult Outcome) → Option (List Outcome)
  | [] => some []
  | .ok o :: rest => (collectOk rest).map (fun l => o :: l)
  | .exn :: _ => none

/-- The per index options build of Process_List (src/Pipeline.py lines
176-186): for each key, a list valued entry contributes its element at
the index and any other entry is copied verbatim; indexing past the end
of a short list raises (none).  The all scalar fast path of the source
([options] * N) is unreachable, because the asserted list valued
image_file entry makes the all scalar test false. -/
def broadcastAt (i : Nat) : Options → Option Options
  | [] => some []
  | (k, OptVal.vlist l) :: rest =>
    match l[i]?, broadcastAt i rest with
    | some v, some r => some ((k, v) :: r)
    | _, _ => none
  | (k, v) :: rest => (broadcastAt i rest).map (fun r => (k, v) :: r)

/-- The use_options list of Process_List: one options mapping per image
index. -/
def buildUseOptions (options : Options) (n : Nat) : Option (List Options) :=
  seqOpt (fun i => broadcastAt i options) (List.range n)

/-- One entry of one successful timers dictionary folded into the
accumulated (sums, counts) pair, exactly as the aggregation loop of
Process_List does (src/Pipeline.py lines 204-212): a known step name
adds to its sum and bumps its count, a new one starts both at the entry
value and one.  The getD fallback on the counts lookup is never reached
because sums and counts always hold the same keys. -/
def aggInner (tc : List (String × Rat) × List (String × Rat))
    (kv : String × Rat) : List (String × Rat) × List (String × Rat) :=
  match lookupD tc.1 kv.1 with
  | some old =>
      (dictSet tc.1 kv.1 (old + kv.2),
       dictSet tc.2 kv.1 ((lookupD tc.2 kv.1).getD 0 + 1))
  | none => (dictSet tc.1 kv.1 kv.2, dictSet tc.2 kv.1 1)

/-- One outcome folded into the accumulated (sums, counts) pair: the
failure sentinel is skipped (the r == 1 continue), a success folds each
of its timer entries in. -/
def aggStep (tc : List (String × Rat) × List (String × Rat))
    (o : Outcome) : List (String × Rat) × List (String × Rat) :=
  match o with
  | .failure => tc
  | .success t => t.foldl aggInner tc

/-- The (sums, counts) dictionaries accumulated over a whole batch. -/
def aggregateRaw (outs : List Outcome) :
    List (String × Rat) × List (String × Rat) :=
  outs.foldl aggStep ([], [])

/-- The per step mean times Process_List logs: each accumulated sum
divided by its count (src/Pipeline.py lines 216-218). -/
def aggregateMeans (outs : List Outcome) : List (String × Rat) :=
  (aggregateRaw outs).1.map
    (fun kv => (kv.1, kv.2 / ((lookupD (aggregateRaw outs).2 kv.1).getD 1)))

/-- What Process_List does with the collected outcome list: when the
accumulated timers dictionary is empty it logs the all images failed
summary and returns None (retNone) before any mean is computed; else it
computes and logs the means and returns the outcome list. -/
inductive BatchRes where
  | exn
  | retNone
  | ret (outs : List Outcome) (means : List (String × Rat))
deriving DecidableEq

/-- The tail of Process_List after the jobs ran, from the collected
outcomes (src/Pipeline.py lines 201-221). -/
def finishBatch (outs : List Outcome) : BatchRes :=
  if (aggregateRaw outs).1.isEmpty then .retNone
  else .ret outs (aggregateMeans outs)

/-- Process_List (src/Pipeline.py lines 167-221): asserts the
image_file entry is a list (an uncaught AssertionError otherwise),
builds the per index options, reads the worker count (an uncaught
KeyError or TypeError when absent or not an integer), runs one
Process_Image job per image - the pool map and the sequential map both
yield the results in input order - and finishes with the aggregation
tail.  none embeds a job that did not terminate within its fuel. -/
def Process_List (methods : Methods) (steps : SeqGraph)
    (ri : String → Options → Except Unit (Option Image)) (dur : Nat → Rat)
    (fuel : Nat) (options : Options) : Option BatchRes :=
  match lookupD options "image_file" with
  | some (.vlist imgs) =>
    match buildUseOptions options imgs.length with
    | none => some .exn
    | some useOpts =>
      match lookupD options "n_procs" with
      | some (.int _) =>
        match seqOpt (Process_Image methods steps ri dur fuel) useOpts with
        | none => none
        | some jres =>
          match collectOk jres with
          | none => some .exn
          | some outs => some (finishBatch outs)
      | _ => some .exn
  | _ => some .exn

/-- The elapsed times recorded for a given step name across the
successful outcomes of a batch, in batch order: the list the spec takes
the arithmetic mean over. -/
def successTimes (outs : List Outcome) (x : String) : List Rat :=
  outs.filterMap (fun o =>
    match o with
    | .success t => lookupD t x
    | .failure => none)

/-- No duplicate strings in a list. -/
def keysNodupL : List String → Bool
  | [] => true
  | k :: ks => if memB k ks then false else keysNodupL ks

/-- The keys of a timers dictionary hold no duplicate (true of every
dictionary an actual run produces). -/
def keysNodup (o : Outcome) : Bool :=
  match o with
  | .success t => keysNodupL (t.map Prod.fst)
  | .failure => true

/-! ## Dictionary lemmas -/

theorem lookupD_dictSet_self {α : Type} (d : List (String × α)) (k : String)
    (v : α) : lookupD (dictSet d k v) k = some v := by
  induction d with
  | nil => simp [dictSet, lookupD]
  | cons kv rest ih =>
      obtain ⟨k2, v2⟩ := kv
      by_cases h : k2 = k
      · subst h; simp [dictSet, lookupD]
      · simp [dictSet, lookupD, h, ih]

theorem lookupD_dictSet_ne {α : Type} (d : List (String × α)) (k x : String)
    (v : α) (h : x ≠ k) : lookupD (dictSet d k v) x = lookupD d x := by
  induction d with
  | nil =>
      have hkx : ¬ (k = x) := fun hh => h hh.symm
      simp [dictSet, lookupD, hkx]
  | cons kv rest ih =>
      obtain ⟨k2, v2⟩ := kv
      by_cases h2 : k2 = k
      · subst h2
        have hkx : ¬ (k2 = x) := fun hh => h hh.symm
        simp [dictSet, lookupD, hkx]
      · simp only [dictSet, if_neg h2, lookupD, ih]

theorem lookupD_eq_none_of_memB_false {α : Type} (d : List (String × α))
    (x : String) (h : memB x (d.map Prod.fst) = false) : lookupD d x = none := by
  induction d with
  | nil => rfl
  | cons kv rest ih =>
      obtain ⟨k2, v2⟩ := kv
      simp only [List.map, memB] at h
      by_cases h2 : k2 = x
      · simp [h2] at h
      · simp only [lookupD, if_neg h2]
        exact ih (by simpa [h2] using h)

theorem length_dictSet {α : Type} (d : List (String × α)) (k : String) (v : α) :
    (dictSet d k v).length =
      if memB k (d.map Prod.fst) then d.length else d.length + 1 := by
  induction d with
  | nil => simp [dictSet, memB]
  | cons kv rest ih =>
      obtain ⟨k2, v2⟩ := kv
      by_cases h : k2 = k
      · simp [dictSet, memB, h]
      · simp only [dictSet, if_neg h, List.length_cons, List.map, memB, ih]
        by_cases h2 : memB k (rest.map Prod.fst)
        · simp [h, h2]
        · simp [h, h2]

theorem memB_keys_dictSet {α : Type} (d : List (String × α)) (k x : String)
    (v : α) : memB x ((dictSet d k v).map Prod.fst) =
      if k = x then true else memB x (d.map Prod.fst) := by
  induction d with
  | nil => simp [dictSet, memB]
  | cons kv rest ih =>
      obtain ⟨k2, v2⟩ := kv
      by_cases h : k2 = k
      · subst h; by_cases h2 : k2 = x <;> simp [dictSet, memB, h2]
      · simp only [dictSet, if_neg h, List.map, memB, ih]
        by_cases h2 : k2 = x <;> by_cases h3 : k = x <;> simp [h2, h3]

theorem mem_dictSet {α : Type} (d : List (String × α)) (k x : String)
    (v w : α) (h : (x, w) ∈ dictSet d k v) : (x, w) = (k, v) ∨ (x, w) ∈ d := by
  induction d with
  | nil =>
      simp only [dictSet] at h
      exact Or.inl (by simpa using h)
  | cons kv rest ih =>
      obtain ⟨k2, v2⟩ := kv
      by_cases h2 : k2 = k
      · subst h2
        simp only [dictSet, if_pos rfl] at h
        rcases List.mem_cons.mp h with h3 | h3
        · exact Or.inl h3
        · exact Or.inr (List.mem_cons_of_mem _ h3)
      · simp only [dictSet, if_neg h2] at h
        rcases List.mem_cons.mp h with h3 | h3
        · exact Or.inr (List.mem_cons.mpr (Or.inl h3))
        · rcases ih h3 with h4 | h4
          · exact Or.inl h4
          · exact Or.inr (List.mem_cons_of_mem _ h4)

theorem memB_append_single (l : List String) (n x : String) :
    memB x (l ++ [n]) = if n = x then true else memB x l := by
  induction l with
  | nil => simp [memB]
  | cons y ys ih =>
      rw [List.cons_append]
      by_cases h : y = x
      · simp [memB, h]
      · simp only [memB, if_neg h, ih]

theorem dedupKeep_append_single (l : List String) (n : String) :
    (dedupKeep (l ++ [n])).length =
      (dedupKeep l).length + (if memB n l then 0 else 1) := by
  induction l with
  | nil => simp [dedupKeep, memB]
  | cons x xs ih =>
      rw [List.cons_append]
      simp only [dedupKeep, memB_append_single, memB]
      by_cases hnx : n = x
      · subst hnx
        by_cases h2 : memB n xs
        · simp [h2, ih]
        · simp [h2, ih]
      · have hxn : ¬ (x = n) := fun hh => hnx hh.symm
        by_cases hx : memB x xs
        · simp [hnx, hxn, hx, ih]
        · by_cases h3 : memB n xs
          · simp [hnx, hxn, hx, h3, ih]
          · simp [hnx, hxn, hx, h3, ih]

/-! ## Claim C4: UpdatePipeline sequence replacement -/

/-- Claim C4 counterexample: calling the sequence update with the empty
mapping, which lacks a head key, raises nothing and is a silent no-op
(the Python truthiness test skips falsy arguments), contradicting the
claim that a mapping lacking head always fails with the configuration
error. -/
theorem c4_counterexample :
    (UpdatePipeline [] defaultSteps none (some (.dict []))).1 = none ∧
    (UpdatePipeline [] defaultSteps none (some (.dict []))).2.2 =
      defaultSteps :=
  ⟨rfl, rfl⟩

/-- Claim C4 (amended): a NON-EMPTY mapping lacking a head key always
fails with the assertion error and leaves the prior sequence graph
unchanged (the replacement assignment is only reached after the
assertion, so the update is atomic); a mapping holding a head key
replaces the entire graph; a non-empty flat ordered list replaces only
the head sequence, leaving every other sequence unchanged; an absent or
empty argument is a no-op. -/
theorem c4_update_sequences (methods : Methods) (steps : SeqGraph)
    (nm : Option Methods) :
    (∀ d : SeqGraph, d ≠ [] → lookupD d "head" = none →
      (UpdatePipeline methods steps nm (some (.dict d))).1 =
        some "AssertionError" ∧
      (UpdatePipeline methods steps nm (some (.dict d))).2.2 = steps) ∧
    (∀ d : SeqGraph, lookupD d "head" ≠ none →
      (UpdatePipeline methods steps nm (some (.dict d))).1 = none ∧
      (UpdatePipeline methods steps nm (some (.dict d))).2.2 = d) ∧
    (∀ l : List String, l ≠ [] →
      (UpdatePipeline methods steps nm (some (.flat l))).1 = none ∧
      (UpdatePipeline methods steps nm (some (.flat l))).2.2 =
        dictSet steps "head" l ∧
      lookupD (dictSet steps "head" l) "head" = some l ∧
      (∀ k, k ≠ "head" →
        lookupD (dictSet steps "head" l) k = lookupD steps k)) ∧
    (UpdatePipeline methods steps nm none).2.2 = steps ∧
    (UpdatePipeline methods steps nm (some (.dict []))).1 = none ∧
    (UpdatePipeline methods steps nm (some (.flat []))).2.2 = steps := by
  refine ⟨?_, ?_, ?_, ?_, ?_, ?_⟩
  · intro d hne hhead
    match d with
    | [] => exact absurd rfl hne
    | kv :: rest =>
        constructor <;> simp [UpdatePipeline, hhead]
  · intro d hhead
    match d with
    | [] => exact absurd rfl hhead
    | kv :: rest =>
        have hs : (lookupD (kv :: rest) "head").isSome = true :=
          Option.isSome_iff_ne_none.mpr hhead
        constructor <;> simp [UpdatePipeline, hs]
  · intro l hne
    match l with
    | [] => exact absurd rfl hne
    | x :: xs =>
        refine ⟨by simp [UpdatePipeline], by simp [UpdatePipeline],
          lookupD_dictSet_self _ _ _, fun k hk => lookupD_dictSet_ne _ _ _ _ hk⟩
  · rfl
  · rfl
  · rfl

/-- Claim C4 witness: the amended theorem applied at concrete inputs, a
one entry mapping without head and a one entry flat list. -/
theorem c4_witness :
    ((UpdatePipeline [] defaultSteps none
        (some (.dict [("a", ["x"])]))).1 = some "AssertionError" ∧
     (UpdatePipeline [] defaultSteps none
        (some (.dict [("a", ["x"])]))).2.2 = defaultSteps) ∧
    (UpdatePipeline [] defaultSteps none (some (.flat ["x"]))).2.2 =
      dictSet defaultSteps "head" ["x"] :=
  ⟨(c4_update_sequences [] defaultSteps none).1 [("a", ["x"])]
      (by simp) (by rfl),
   ((c4_update_sequences [] defaultSteps none).2.2.1 ["x"] (by simp)).2.1⟩

/-! ## Claim C2: forced mode head sequence -/

/-- Claim C2 counterexample: with forced mode selected and no user
overrides the resulting head sequence is the seven step source list,
which contains the isophote initialization step and therefore differs
from the six step forced list the spec enumerates in section 4.4. -/
theorem c2_counterexample :
    lookupD (Process_ConfigFile_steps [] defaultSteps
        ⟨"forced image", none, none⟩).2 "head" = some forcedSteps ∧
    forcedSteps ≠ specForcedHead :=
  ⟨rfl, by decide⟩

/-- Claim C2 (amended): when the process mode contains the substring
forced and the configuration supplies no overrides, the resulting head
sequence is exactly the built in forced list of the source: background,
psf, center forced, isophoteinit, isophotefit forced, isophoteextract
forced, writeprof - that is, the spec list of section 4.4 with the
isophote initialization step present between center finding and
isophote fitting; the fit quality step is indeed omitted. -/
theorem c2_forced_head (methods : Methods) (steps : SeqGraph) (mode : String)
    (h : occursIn "forced".data mode.data = true) :
    lookupD (Process_ConfigFile_steps methods steps
        ⟨mode, none, none⟩).2 "head" = some forcedSteps := by
  simp only [Process_ConfigFile_steps, h, if_true]
  simp only [UpdatePipeline, forcedSteps]
  exact lookupD_dictSet_self _ _ _

/-- Claim C2 witness: the amended theorem applied to the forced image
mode string with the default graph. -/
theorem c2_witness :
    lookupD (Process_ConfigFile_steps [] defaultSteps
        ⟨"forced image", none, none⟩).2 "head" = some forcedSteps :=
  c2_forced_head [] defaultSteps "forced image" (by decide)

/-! ## String helper lemmas for the name derivation -/

theorem memC_append (c : Char) (l1 l2 : List Char) :
    memC c (l1 ++ l2) = (memC c l1 || memC c l2) := by
  induction l1 with
  | nil => simp [memC]
  | cons x xs ih =>
      rw [List.cons_append]
      by_cases h : x = c <;> simp [memC, h, ih]

theorem lastIdxOf_eq_none (c : Char) (l : List Char) (h : memC c l = false) :
    lastIdxOf c l = none := by
  induction l with
  | nil => rfl
  | cons x xs ih =>
      simp only [memC] at h
      by_cases h2 : x = c
      · simp [h2] at h
      · rw [if_neg h2] at h
        simp [lastIdxOf, ih h, h2]

theorem lastIdxOf_append (c : Char) (pre rest : List Char)
    (h : memC c rest = false) :
    lastIdxOf c (pre ++ c :: rest) = some pre.length := by
  induction pre with
  | nil => simp [lastIdxOf, lastIdxOf_eq_none c rest h]
  | cons x xs ih =>
      rw [List.cons_append]
      simp [lastIdxOf, ih]

theorem firstIdxOf_append (c : Char) (pre rest : List Char)
    (h : memC c pre = false) :
    firstIdxOf c (pre ++ c :: rest) = some pre.length := by
  induction pre with
  | nil => simp [firstIdxOf]
  | cons x xs ih =>
      simp only [memC] at h
      by_cases h2 : x = c
      · simp [h2] at h
      · rw [if_neg h2] at h
        rw [List.cons_append]
        simp [firstIdxOf, h2, ih h]

theorem pySliceL_nat {α : Type} (l : List α) (a b : Nat) (hb : b ≤ l.length) :
    pySliceL l (a : Nat) (b : Nat) = (l.take b).drop a := by
  unfold pySliceL
  have h1 : ¬ ((a : Int) < 0) := by omega
  have h2 : ¬ ((b : Int) < 0) := by omega
  simp only [if_neg h1, if_neg h2]
  have h3 : min (b : Int) ((l.length : Nat) : Int) = (b : Int) := by
    have : (b : Int) ≤ ((l.length : Nat) : Int) := by exact_mod_cast hb
    omega
  rw [h3]
  have h4 : ((b : Int)).toNat = b := Int.toNat_natCast b
  have h5 : (min (a : Int) ((l.length : Nat) : Int)).toNat = min a l.length := by
    rw [← Nat.cast_min]
    exact Int.toNat_natCast _
  rw [h4, h5]
  by_cases h6 : a ≤ l.length
  · rw [min_eq_left h6]
  · rw [min_eq_right (le_of_not_le h6)]
    rw [List.drop_eq_nil_of_le, List.drop_eq_nil_of_le]
    · calc (l.take b).length = min b l.length := List.length_take b l
        _ ≤ a := by omega
    · calc (l.take b).length = min b l.length := List.length_take b l
        _ ≤ l.length := min_le_right _ _

/-! ## Claim C3: derived job name -/

/-- Claim C3 counterexample: for the input path/to/img.fits the derived
job name is /img (the slice starts at the index of the last slash, not
after it), not img as the claim states. -/
theorem c3_counterexample :
    deriveName "path/to/img.fits" = "/img" ∧
    deriveName "path/to/img.fits" ≠ "img" :=
  ⟨by decide, by decide⟩

/-- Claim C3 (amended): for an image file path of the shape
dir/stem.ext - a directory prefix, a slash, a stem holding neither a
slash nor a dot, and an extension holding no slash - the derived job
name is the slash followed by the stem: the directory prefix is
stripped except for its trailing slash, and the extension is stripped.
(Only when the path holds no slash at all does the derived name equal
the bare stem.) -/
theorem c3_derive_name (dir stem ext : List Char)
    (h1 : memC '.' stem = false) (h2 : memC '/' stem = false)
    (h3 : memC '/' ext = false) :
    deriveName (String.mk (dir ++ '/' :: (stem ++ '.' :: ext))) =
      String.mk ('/' :: stem) := by
  have hdata : (String.mk (dir ++ '/' :: (stem ++ '.' :: ext))).data =
      dir ++ '/' :: (stem ++ '.' :: ext) := rfl
  unfold deriveName
  rw [hdata]
  have hrest : memC '/' (stem ++ '.' :: ext) = false := by
    rw [memC_append]
    simp only [memC]
    rw [if_neg (by decide : ¬ ('.' = '/'))]
    simp [h2, h3]
  have hmem : memC '/' (dir ++ '/' :: (stem ++ '.' :: ext)) = true := by
    rw [memC_append]
    simp [memC]
  have hstart : pyStartAt (dir ++ '/' :: (stem ++ '.' :: ext)) = dir.length := by
    unfold pyStartAt
    rw [hmem, if_pos rfl, lastIdxOf_append '/' dir _ hrest]
    simp only [Option.getD_some]
  rw [hstart]
  have hfind : pyFindFrom '.' (dir ++ '/' :: (stem ++ '.' :: ext)) dir.length =
      ((dir.length + (stem.length + 1) : Nat) : Int) := by
    unfold pyFindFrom
    rw [List.drop_left]
    have : '/' :: (stem ++ '.' :: ext) = ('/' :: stem) ++ '.' :: ext := rfl
    rw [this, firstIdxOf_append '.' ('/' :: stem) ext
      (by simp only [memC]; rw [if_neg (by decide : ¬ ('/' = '.'))]; exact h1)]
    simp
  rw [hfind]
  have hsplit : dir ++ '/' :: (stem ++ '.' :: ext) =
      (dir ++ '/' :: stem) ++ '.' :: ext := by simp
  have hlen : dir.length + (stem.length + 1) = (dir ++ '/' :: stem).length := by
    simp [List.length_append]
  rw [pySliceL_nat _ dir.length (dir.length + (stem.length + 1))
    (by rw [hsplit]; simp [List.length_append])]
  rw [hsplit, hlen, List.take_left]
  have : dir ++ '/' :: stem = dir ++ ('/' :: stem) := rfl
  rw [this, List.drop_left]

/-! ## The while loop unfolding equation -/

theorem runLoop_succ (methods : Methods) (steps : SeqGraph) (opts : Options)
    (dur : Nat → Rat) (fuel : Nat) (s : EngState) :
    runLoop methods steps opts dur (fuel + 1) s =
      match tick methods steps opts dur s with
      | .cont s2 => runLoop methods steps opts dur fuel s2
      | .done t => some (.ok (.success t), s.regNames)
      | .fail => some (.ok .failure, s.regNames)
      | .exn => some (.exn, s.regNames) := rfl

/-! ## Claim C6: branch tick semantics -/

/-- Claim C6 (confirmed): at a branch dispatched step, a step function
returning a string sets the current sequence to that string and the
index to 0, and a step function returning any non string value advances
the index by exactly 1; in both cases every other state component - in
particular the accumulated results and the timers record - is left
untouched, which the structure update form of the conclusion expresses. -/
theorem c6_branch_tick (methods : Methods) (steps : SeqGraph)
    (opts : Options) (dur : Nat → Rat) (s : EngState) (sq : List String)
    (name : String) (f : StepFunc)
    (h1 : lookupD steps s.key = some sq)
    (h2 : sq[s.idx]? = some name)
    (h3 : occursIn branchChars name.data = true)
    (h4 : lookupD methods name = some f) :
    (∀ q, f s.dat s.results opts = .ok (.str q) →
      tick methods steps opts dur s = .cont { s with key := q, idx := 0 }) ∧
    (∀ v, f s.dat s.results opts = .ok v → (∀ q, v ≠ .str q) →
      tick methods steps opts dur s = .cont { s with idx := s.idx + 1 }) := by
  constructor
  · intro q hq
    unfold tick
    simp only [h1, h2, h3, if_true, h4, hq]
  · intro v hv hne
    unfold tick
    simp only [h1, h2, h3, if_true, h4]
    rw [hv]
    match v with
    | .pair img res => rfl
    | .str q => exact absurd rfl (hne q)
    | .otherV => rfl

/-- Claim C6 witness: the branch tick theorem applied at a concrete
state for both conclusions, a string return redirecting to sequence two
and a non string return advancing the index. -/
theorem c6_witness :
    tick [("a branch", fun _ _ _ => Except.ok (.str "two"))]
      [("head", ["a branch"])] [] (fun _ => 0) (initState [[1]]) =
      .cont { initState [[1]] with key := "two", idx := 0 } ∧
    tick [("a branch", fun _ _ _ => Except.ok .otherV)]
      [("head", ["a branch"])] [] (fun _ => 0) (initState [[1]]) =
      .cont { initState [[1]] with idx := 1 } :=
  ⟨(c6_branch_tick [("a branch", fun _ _ _ => Except.ok (.str "two"))]
      [("head", ["a branch"])] [] (fun _ => 0) (initState [[1]])
      ["a branch"] "a branch" (fun _ _ _ => Except.ok (.str "two"))
      rfl rfl rfl rfl).1 "two" rfl,
   (c6_branch_tick [("a branch", fun _ _ _ => Except.ok .otherV)]
      [("head", ["a branch"])] [] (fun _ => 0) (initState [[1]])
      ["a branch"] "a branch" (fun _ _ _ => Except.ok .otherV)
      rfl rfl rfl rfl).2 .otherV rfl (fun q h => by cases h)⟩

/-! ## Claim C9: dispatch is by name substring only -/

/-- Claim C9 (confirmed): the engine decides how to dispatch a step
purely from whether the substring branch occurs in the step name, never
from the registered function.  Concretely: under a name containing
branch, a function returning a regular looking (image, results) pair is
treated as a no redirect decision - the index advances and the image,
results and timers components stay untouched; under a name not
containing branch, a function returning a branch looking string is
invoked as a regular step, whose tuple unpacking raises, so the tick is
the isolated per step fault. -/
theorem c9_dispatch_by_name (methods : Methods) (steps : SeqGraph)
    (opts : Options) (dur : Nat → Rat) (s : EngState) (sq : List String)
    (name : String) (f : StepFunc)
    (h1 : lookupD steps s.key = some sq)
    (h2 : sq[s.idx]? = some name)
    (h4 : lookupD methods name = some f) :
    (occursIn branchChars name.data = true →
      ∀ img res, f s.dat s.results opts = .ok (.pair img res) →
        tick methods steps opts dur s = .cont { s with idx := s.idx + 1 }) ∧
    (occursIn branchChars name.data = false →
      ∀ q, f s.dat s.results opts = .ok (.str q) →
        tick methods steps opts dur s = .fail) := by
  constructor
  · intro h3 img res hret
    unfold tick
    simp only [h1, h2, h3, if_true, h4, hret]
  · intro h3 q hret
    unfold tick
    simp only [h1, h2, h3, Bool.false_eq_true, if_false, h4, hret]

/-- Claim C9 witness: the dispatch theorem applied at concrete states -
a pair returning function under a branch name merely advances the
index, and a string returning function under a plain name faults. -/
theorem c9_witness :
    tick [("a branch", fun d _ _ => Except.ok (.pair d []))]
      [("head", ["a branch"])] [] (fun _ => 0) (initState [[1]]) =
      .cont { initState [[1]] with idx := 1 } ∧
    tick [("center", fun _ _ _ => Except.ok (.str "two"))]
      [("head", ["center"])] [] (fun _ => 0) (initState [[1]]) = .fail :=
  ⟨(c9_dispatch_by_name [("a branch", fun d _ _ => Except.ok (.pair d []))]
      [("head", ["a branch"])] [] (fun _ => 0) (initState [[1]])
      ["a branch"] "a branch" (fun d _ _ => Except.ok (.pair d []))
      rfl rfl rfl).1 rfl [[1]] [] rfl,
   (c9_dispatch_by_name [("center", fun _ _ _ => Except.ok (.str "two"))]
      [("head", ["center"])] [] (fun _ => 0) (initState [[1]])
      ["center"] "center" (fun _ _ _ => Except.ok (.str "two"))
      rfl rfl rfl).2 rfl "two" rfl⟩

/-! ## Claim C8: the pre-run empty frame check -/

/-- Claim C8 (confirmed): whenever the loaded payload is None, or it is
a non empty grid whose centered 20 by 20 window is uniformly zero (as
with a 40 by 40 all zero central block), Process_Image returns the
failure sentinel.  The conclusion holds for every registry, sequence
graph and duration oracle, which expresses that no pipeline step is
consulted and no timing or result entry can have been produced. -/
theorem c8_empty_frame (methods : Methods) (steps : SeqGraph)
    (ri : String → Options → Except Unit (Option Image)) (dur : Nat → Rat)
    (fuel : Nat) (options : Options) (file : String)
    (h0 : lookupD options "image_file" = some (.str file))
    (h1 : ri file (effOptions options file) = .ok none ∨
          ∃ d, ri file (effOptions options file) = .ok (some d) ∧
            d.isEmpty = false ∧ emptyChunk d = true) :
    Process_Image methods steps ri dur fuel options = some (.ok .failure) := by
  unfold Process_Image
  rcases h1 with h1 | ⟨d, hd, hne, hzero⟩
  · simp only [h0, h1]
  · simp only [h0, hd, hne, Bool.false_eq_true, if_false, hzero, if_true]

/-- Claim C8 witness: the empty frame theorem applied to a loader that
yields the one pixel zero grid, whose centered window is that zero
pixel. -/
theorem c8_witness :
    Process_Image [] defaultSteps (fun _ _ => Except.ok (some [[0]]))
      (fun _ => 0) 3 [("image_file", .str "f.x")] = some (.ok .failure) :=
  c8_empty_frame [] defaultSteps (fun _ _ => Except.ok (some [[0]]))
    (fun _ => 0) 3 [("image_file", .str "f.x")] "f.x" rfl
    (Or.inr ⟨[[0]], rfl, rfl, rfl⟩)

/-! ## Claim C10: unknown redirect target is an uncaught fault -/

/-- Claim C10 (confirmed): when the first head step is branch
dispatched and its function returns the name of a sequence absent from
the graph, Process_Image ends in the uncaught exception result (the
sequence lookup sits in the while guard, outside the per step fault
handler), not in the caught failure sentinel: such a fault is not
isolated at the per image boundary. -/
theorem c10_unknown_redirect (methods : Methods) (steps : SeqGraph)
    (ri : String → Options → Except Unit (Option Image)) (dur : Nat → Rat)
    (fuel : Nat) (options : Options) (file : String) (d : Image)
    (sq : List String) (name : String) (f : StepFunc) (q : String)
    (h0 : lookupD options "image_file" = some (.str file))
    (h1 : ri file (effOptions options file) = .ok (some d))
    (h2 : d.isEmpty = false)
    (h3 : emptyChunk d = false)
    (h4 : lookupD steps "head" = some sq)
    (h5 : sq[0]? = some name)
    (h6 : occursIn branchChars name.data = true)
    (h7 : lookupD methods name = some f)
    (h8 : f d [] (effOptions options file) = .ok (.str q))
    (h9 : lookupD steps q = none) :
    Process_Image methods steps ri dur (fuel + 2) options = some .exn := by
  unfold Process_Image
  simp only [h0, h1, h2, Bool.false_eq_true, if_false, h3]
  have ht1 : tick methods steps (effOptions options file) dur (initState d) =
      .cont { initState d with key := q, idx := 0 } := by
    unfold tick
    simp only [initState, h4, h5, h6, if_true, h7, h8]
  have ht2 : tick methods steps (effOptions options file) dur
      { initState d with key := q, idx := 0 } = .exn := by
    unfold tick
    simp only [initState, h9]
  rw [show fuel + 2 = fuel + 1 + 1 from rfl]
  simp only [runLoop_succ, ht1, ht2]
  rfl

/-- Claim C10 witness: a concrete branch step redirecting to a sequence
name absent from the graph makes Process_Image escape with the uncaught
exception result. -/
theorem c10_witness :
    Process_Image [("a branch", fun _ _ _ => Except.ok (.str "nowhere"))]
      [("head", ["a branch"])] (fun _ _ => Except.ok (some [[1]]))
      (fun _ => 0) 2 [("image_file", .str "f.y")] = some .exn :=
  c10_unknown_redirect [("a branch", fun _ _ _ => Except.ok (.str "nowhere"))]
    [("head", ["a branch"])] (fun _ _ => Except.ok (some [[1]]))
    (fun _ => 0) 0 [("image_file", .str "f.y")] "f.y" [[1]] ["a branch"]
    "a branch" (fun _ _ _ => Except.ok (.str "nowhere")) "nowhere"
    rfl rfl rfl rfl rfl rfl rfl rfl rfl rfl

/-! ## Claim C5: timers entries versus regular executions -/

theorem tick_done (methods : Methods) (steps : SeqGraph) (opts : Options)
    (dur : Nat → Rat) (s : EngState) (tt : List (String × Rat))
    (h : tick methods steps opts dur s = .done tt) : tt = s.timers := by
  unfold tick at h
  cases hlk : lookupD steps s.key with
  | none => simp only [hlk] at h; simp at h
  | some sq =>
    simp only [hlk] at h
    cases hidx : sq[s.idx]? with
    | none =>
        simp only [hidx] at h
        exact (TickRes.done.inj h).symm
    | some name =>
      simp only [hidx] at h
      by_cases hb : occursIn branchChars name.data = true
      · rw [if_pos hb] at h
        cases hm : lookupD methods name with
        | none => simp only [hm] at h; simp at h
        | some f =>
          simp only [hm] at h
          cases hf : f s.dat s.results opts with
          | error e => rw [hf] at h; simp at h
          | ok v =>
            rw [hf] at h
            match v with
            | .str q => simp at h
            | .pair img res => simp at h
            | .otherV => simp at h
      · rw [if_neg hb] at h
        cases hm : lookupD methods name with
        | none => simp only [hm] at h; simp at h
        | some f =>
          simp only [hm] at h
          cases hf : f s.dat s.results opts with
          | error e => rw [hf] at h; simp at h
          | ok v =>
            rw [hf] at h
            match v with
            | .str q => simp at h
            | .pair img res => simp at h
            | .otherV => simp at h

theorem tick_cont_inv (methods : Methods) (steps : SeqGraph) (opts : Options)
    (dur : Nat → Rat) (s s2 : EngState)
    (h : tick methods steps opts dur s = .cont s2)
    (i1 : ∀ x, memB x (s.timers.map Prod.fst) = memB x s.regNames)
    (i2 : s.timers.length = (dedupKeep s.regNames).length)
    (i3 : ∀ kv ∈ s.timers, occursIn branchChars kv.1.data = false) :
    (∀ x, memB x (s2.timers.map Prod.fst) = memB x s2.regNames) ∧
    s2.timers.length = (dedupKeep s2.regNames).length ∧
    (∀ kv ∈ s2.timers, occursIn branchChars kv.1.data = false) := by
  unfold tick at h
  cases hlk : lookupD steps s.key with
  | none => simp only [hlk] at h; simp at h
  | some sq =>
    simp only [hlk] at h
    cases hidx : sq[s.idx]? with
    | none => simp only [hidx] at h; simp at h
    | some name =>
      simp only [hidx] at h
      by_cases hb : occursIn branchChars name.data = true
      · rw [if_pos hb] at h
        cases hm : lookupD methods name with
        | none => simp only [hm] at h; simp at h
        | some f =>
          simp only [hm] at h
          cases hf : f s.dat s.results opts with
          | error e => rw [hf] at h; simp at h
          | ok v =>
            rw [hf] at h
            match v with
            | .str q =>
                injection h with h2
                subst h2
                exact ⟨i1, i2, i3⟩
            | .pair img res =>
                injection h with h2
                subst h2
                exact ⟨i1, i2, i3⟩
            | .otherV =>
                injection h with h2
                subst h2
                exact ⟨i1, i2, i3⟩
      · rw [if_neg hb] at h
        have hbf : occursIn branchChars name.data = false := by
          revert hb; cases occursIn branchChars name.data <;> simp
        cases hm : lookupD methods name with
        | none => simp only [hm] at h; simp at h
        | some f =>
          simp only [hm] at h
          cases hf : f s.dat s.results opts with
          | error e => rw [hf] at h; simp at h
          | ok v =>
            rw [hf] at h
            match v with
            | .str q => simp at h
            | .otherV => simp at h
            | .pair img res =>
                injection h with h2
                subst h2
                refine ⟨?_, ?_, ?_⟩
                · intro x
                  show memB x ((dictSet s.timers name (dur s.regCount)).map
                      Prod.fst) = memB x (s.regNames ++ [name])
                  rw [memB_keys_dictSet, memB_append_single]
                  by_cases hx : name = x
                  · simp [hx]
                  · simp [hx, i1 x]
                · show (dictSet s.timers name (dur s.regCount)).length =
                    (dedupKeep (s.regNames ++ [name])).length
                  rw [length_dictSet, dedupKeep_append_single, i1 name, ← i2]
                  by_cases hmm : memB name s.regNames <;> simp [hmm]
                · intro kv hkv
                  obtain ⟨kx, kw⟩ := kv
                  rcases mem_dictSet s.timers name kx (dur s.regCount) kw
                      hkv with heq | hmem
                  · have hkx : kx = name := congrArg Prod.fst heq
                    simpa [hkx] using hbf
                  · exact i3 (kx, kw) hmem

theorem runLoop_success_inv (methods : Methods) (steps : SeqGraph)
    (opts : Options) (dur : Nat → Rat) :
    ∀ (fuel : Nat) (s : EngState) (t : List (String × Rat)) (tr : List String),
    (∀ x, memB x (s.timers.map Prod.fst) = memB x s.regNames) →
    s.timers.length = (dedupKeep s.regNames).length →
    (∀ kv ∈ s.timers, occursIn branchChars kv.1.data = false) →
    runLoop methods steps opts dur fuel s = some (.ok (.success t), tr) →
    t.length = (dedupKeep tr).length ∧
    (∀ kv ∈ t, occursIn branchChars kv.1.data = false) := by
  intro fuel
  induction fuel with
  | zero => intro s t tr _ _ _ hrun; simp [runLoop] at hrun
  | succ fuel ih =>
      intro s t tr i1 i2 i3 hrun
      rw [runLoop_succ] at hrun
      cases htick : tick methods steps opts dur s with
      | cont s2 =>
          simp only [htick] at hrun
          obtain ⟨j1, j2, j3⟩ :=
            tick_cont_inv methods steps opts dur s s2 htick i1 i2 i3
          exact ih s2 t tr j1 j2 j3 hrun
      | done tt =>
          simp only [htick] at hrun
          have htt : tt = s.timers :=
            tick_done methods steps opts dur s tt htick
          have hp := Option.some.inj hrun
          have h1 : PyResult.ok (Outcome.success tt) =
              PyResult.ok (Outcome.success t) := congrArg Prod.fst hp
          have h4 : s.regNames = tr := congrArg Prod.snd hp
          have h5 : tt = t := Outcome.success.inj (PyResult.ok.inj h1)
          rw [← h5, ← h4, htt]
          exact ⟨i2, i3⟩
      | fail => simp only [htick] at hrun; simp at hrun
      | exn => simp only [htick] at hrun; simp at hrun

/-- Claim C5 counterexample: a run in which the regular step s executes
twice - once from head and once after a branch redirect into sequence
two - completes without fault with a Timing record of one entry while
two regular step executions were performed (the ghost trace lists both),
refuting the claimed equality between the entry count and the execution
count. -/
theorem c5_counterexample :
    runLoop
      [("s", fun d _ _ => Except.ok (.pair d [])),
       ("a branch", fun _ _ _ => Except.ok (.str "two"))]
      [("head", ["s", "a branch"]), ("two", ["s"])]
      [] (fun n => (n : Rat)) 4 (initState [[1]]) =
      some (.ok (.success [("s", 1)]), ["s", "s"]) ∧
    [("s", (1 : Rat))].length = 1 ∧ ["s", "s"].length = 2 :=
  ⟨rfl, rfl, rfl⟩

/-- Claim C5 (amended): for a per image run that completes without
fault, the number of Timing entries equals the number of DISTINCT
regular step names executed (the timers dictionary is keyed by step
name, so a name executed again overwrites its entry), which equals the
number of regular executions exactly when no regular step name is
executed twice; and no branch dispatched step name ever appears as a
Timing key. -/
theorem c5_timing_entries (methods : Methods) (steps : SeqGraph)
    (opts : Options) (dur : Nat → Rat) (fuel : Nat) (d : Image)
    (t : List (String × Rat)) (tr : List String)
    (hrun : runLoop methods steps opts dur fuel (initState d) =
      some (.ok (.success t), tr)) :
    t.length = (dedupKeep tr).length ∧
    (∀ kv ∈ t, occursIn branchChars kv.1.data = false) :=
  runLoop_success_inv methods steps opts dur fuel (initState d) t tr
    (fun _ => rfl) rfl (fun _ h => absurd h (List.not_mem_nil _)) hrun

/-- Claim C5 witness: the amended theorem applied to the concrete two
execution run, whose Timing record has one entry, the distinct count of
the two element trace. -/
theorem c5_witness :
    [("s", (1 : Rat))].length = (dedupKeep ["s", "s"]).length ∧
    (∀ kv ∈ [("s", (1 : Rat))], occursIn branchChars kv.1.data = false) :=
  c5_timing_entries
    [("s", fun d _ _ => Except.ok (.pair d [])),
     ("a branch", fun _ _ _ => Except.ok (.str "two"))]
    [("head", ["s", "a branch"]), ("two", ["s"])]
    [] (fun n => (n : Rat)) 4 [[1]] [("s", 1)] ["s", "s"] rfl

/-! ## Claim C7: per step mean aggregation -/

theorem aggInner_spec (tc : List (String × Rat) × List (String × Rat))
    (k0 : String) (v0 : Rat)
    (hpar : ∀ k, (lookupD tc.1 k).isSome = (lookupD tc.2 k).isSome) :
    lookupD (aggInner tc (k0, v0)).1 k0 =
      some ((lookupD tc.1 k0).getD 0 + v0) ∧
    lookupD (aggInner tc (k0, v0)).2 k0 =
      some ((lookupD tc.2 k0).getD 0 + 1) ∧
    (∀ x, x ≠ k0 → lookupD (aggInner tc (k0, v0)).1 x = lookupD tc.1 x ∧
      lookupD (aggInner tc (k0, v0)).2 x = lookupD tc.2 x) ∧
    (∀ k, (lookupD (aggInner tc (k0, v0)).1 k).isSome =
      (lookupD (aggInner tc (k0, v0)).2 k).isSome) := by
  unfold aggInner
  cases hl : lookupD tc.1 k0 with
  | some old =>
      simp only [hl]
      refine ⟨?_, ?_, ?_, ?_⟩
      · rw [lookupD_dictSet_self]
        rfl
      · rw [lookupD_dictSet_self]
      · intro x hx
        exact ⟨lookupD_dictSet_ne _ _ _ _ hx, lookupD_dictSet_ne _ _ _ _ hx⟩
      · intro k
        by_cases hk : k = k0
        · subst hk
          rw [lookupD_dictSet_self, lookupD_dictSet_self]
          rfl
        · rw [lookupD_dictSet_ne _ _ _ _ hk, lookupD_dictSet_ne _ _ _ _ hk]
          exact hpar k
  | none =>
      have hl2 : lookupD tc.2 k0 = none := by
        have hh := hpar k0
        rw [hl] at hh
        simpa using hh.symm
      simp only [hl]
      refine ⟨?_, ?_, ?_, ?_⟩
      · rw [lookupD_dictSet_self]
        simp
      · rw [lookupD_dictSet_self, hl2]
        simp
      · intro x hx
        exact ⟨lookupD_dictSet_ne _ _ _ _ hx, lookupD_dictSet_ne _ _ _ _ hx⟩
      · intro k
        by_cases hk : k = k0
        · subst hk
          rw [lookupD_dictSet_self, lookupD_dictSet_self]
          rfl
        · rw [lookupD_dictSet_ne _ _ _ _ hk, lookupD_dictSet_ne _ _ _ _ hk]
          exact hpar k

theorem aggSuccess_spec (t : List (String × Rat)) :
    ∀ (tc : List (String × Rat) × List (String × Rat)),
    keysNodupL (t.map Prod.fst) = true →
    (∀ k, (lookupD tc.1 k).isSome = (lookupD tc.2 k).isSome) →
    (∀ x,
      lookupD (t.foldl aggInner tc).1 x =
        (match lookupD t x with
         | none => lookupD tc.1 x
         | some v => some ((lookupD tc.1 x).getD 0 + v)) ∧
      lookupD (t.foldl aggInner tc).2 x =
        (match lookupD t x with
         | none => lookupD tc.2 x
         | some _ => some ((lookupD tc.2 x).getD 0 + 1))) ∧
    (∀ k, (lookupD (t.foldl aggInner tc).1 k).isSome =
      (lookupD (t.foldl aggInner tc).2 k).isSome) := by
  induction t with
  | nil =>
      intro tc _ hpar
      exact ⟨fun x => ⟨rfl, rfl⟩, hpar⟩
  | cons kv rest ih =>
      intro tc hnd hpar
      obtain ⟨k0, v0⟩ := kv
      have hnd2 : (if memB k0 (rest.map Prod.fst) then false
          else keysNodupL (rest.map Prod.fst)) = true := hnd
      cases hmem : memB k0 (rest.map Prod.fst) with
      | true => rw [hmem] at hnd2; simp at hnd2
      | false =>
          rw [hmem, if_neg (by simp)] at hnd2
          obtain ⟨ha1, ha2, ha3, ha4⟩ := aggInner_spec tc k0 v0 hpar
          have hrest0 : lookupD rest k0 = none :=
            lookupD_eq_none_of_memB_false rest k0 hmem
          obtain ⟨ihx, ihpar⟩ := ih (aggInner tc (k0, v0)) hnd2 ha4
          refine ⟨?_, ihpar⟩
          intro x
          show lookupD ((rest.foldl aggInner (aggInner tc (k0, v0)))).1 x = _ ∧
            lookupD ((rest.foldl aggInner (aggInner tc (k0, v0)))).2 x = _
          obtain ⟨e1, e2⟩ := ihx x
          by_cases hx : x = k0
          · subst hx
            simp only [hrest0] at e1 e2
            have hcons : lookupD ((x, v0) :: rest) x = some v0 := by
              simp [lookupD]
            rw [e1, e2, hcons, ha1, ha2]
            exact ⟨rfl, rfl⟩
          · have hk0x : ¬ (k0 = x) := fun hh => hx hh.symm
            have hcons : lookupD ((k0, v0) :: rest) x = lookupD rest x := by
              simp [lookupD, hk0x]
            obtain ⟨n1, n2⟩ := ha3 x hx
            rw [e1, e2, n1, n2, hcons]
            exact ⟨rfl, rfl⟩

theorem aggOuter_spec (outs : List Outcome) :
    ∀ (tc : List (String × Rat) × List (String × Rat)),
    (∀ o ∈ outs, keysNodup o = true) →
    (∀ k, (lookupD tc.1 k).isSome = (lookupD tc.2 k).isSome) →
    (∀ x,
      lookupD (outs.foldl aggStep tc).1 x =
        (if successTimes outs x = [] then lookupD tc.1 x
         else some ((lookupD tc.1 x).getD 0 + (successTimes outs x).sum)) ∧
      lookupD (outs.foldl aggStep tc).2 x =
        (if successTimes outs x = [] then lookupD tc.2 x
         else some ((lookupD tc.2 x).getD 0 +
           ((successTimes outs x).length : Rat)))) ∧
    (∀ k, (lookupD (outs.foldl aggStep tc).1 k).isSome =
      (lookupD (outs.foldl aggStep tc).2 k).isSome) := by
  induction outs with
  | nil =>
      intro tc _ hpar
      refine ⟨fun x => ?_, hpar⟩
      simp [successTimes]
  | cons o rest ih =>
      intro tc hnd hpar
      have hndr : ∀ o2 ∈ rest, keysNodup o2 = true :=
        fun o2 h2 => hnd o2 (List.mem_cons_of_mem _ h2)
      cases o with
      | failure =>
          have hst : ∀ x, successTimes (Outcome.failure :: rest) x =
              successTimes rest x := by
            intro x
            simp [successTimes, List.filterMap_cons]
          obtain ⟨ihx, ihpar⟩ := ih tc hndr hpar
          refine ⟨fun x => ?_, ihpar⟩
          rw [show (Outcome.failure :: rest).foldl aggStep tc =
            rest.foldl aggStep tc from rfl, hst x]
          exact ihx x
      | success t =>
          have hndt : keysNodupL (t.map Prod.fst) = true := by
            have hh := hnd (Outcome.success t) (List.mem_cons_self _ _)
            simpa [keysNodup] using hh
          obtain ⟨sx, spar⟩ := aggSuccess_spec t tc hndt hpar
          obtain ⟨ihx, ihpar⟩ := ih (t.foldl aggInner tc) hndr spar
          have hfold : (Outcome.success t :: rest).foldl aggStep tc =
              rest.foldl aggStep (t.foldl aggInner tc) := rfl
          refine ⟨fun x => ?_, by rw [hfold]; exact ihpar⟩
          rw [hfold]
          obtain ⟨e1, e2⟩ := ihx x
          obtain ⟨s1, s2⟩ := sx x
          cases hl : lookupD t x with
          | none =>
              simp only [hl] at s1 s2
              have hst : successTimes (Outcome.success t :: rest) x =
                  successTimes rest x := by
                simp [successTimes, List.filterMap_cons, hl]
              rw [e1, e2, s1, s2, hst]
              exact ⟨rfl, rfl⟩
          | some v =>
              simp only [hl] at s1 s2
              have hst : successTimes (Outcome.success t :: rest) x =
                  v :: successTimes rest x := by
                simp [successTimes, List.filterMap_cons, hl]
              constructor
              · rw [e1, s1, hst]
                by_cases hr : successTimes rest x = []
                · rw [if_pos hr, if_neg (by simp), hr]
                  simp
                · rw [if_neg hr, if_neg (by simp)]
                  rw [Option.getD_some, List.sum_cons]
                  congr 1
                  ring
              · rw [e2, s2, hst]
                by_cases hr : successTimes rest x = []
                · rw [if_pos hr, if_neg (by simp), hr]
                  simp
                · rw [if_neg hr, if_neg (by simp)]
                  rw [Option.getD_some, List.length_cons]
                  congr 1
                  push_cast
                  ring

theorem lookupD_map_val {α β : Type} (l : List (String × α))
    (g : String → α → β) (x : String) :
    lookupD (l.map (fun kv => (kv.1, g kv.1 kv.2))) x =
      (lookupD l x).map (g x) := by
  induction l with
  | nil => rfl
  | cons kv rest ih =>
      obtain ⟨k2, v2⟩ := kv
      by_cases h : k2 = x
      · subst h; simp [lookupD]
      · simp [lookupD, h, ih]

theorem aggregateRaw_all_fail (outs : List Outcome)
    (h : ∀ o ∈ outs, o = .failure) : aggregateRaw outs = ([], []) := by
  unfold aggregateRaw
  induction outs with
  | nil => rfl
  | cons o rest ih =>
      have ho : o = .failure := h o (List.mem_cons_self _ _)
      subst ho
      exact ih (fun o2 h2 => h o2 (List.mem_cons_of_mem _ h2))

theorem lookupD_means (outs : List Outcome) (x : String) :
    lookupD (aggregateMeans outs) x = (lookupD (aggregateRaw outs).1 x).map
      (fun v => v / ((lookupD (aggregateRaw outs).2 x).getD 1)) := by
  unfold aggregateMeans
  exact lookupD_map_val (aggregateRaw outs).1
    (fun k v => v / ((lookupD (aggregateRaw outs).2 k).getD 1)) x

/-- Claim C7 (confirmed): for a batch outcome list whose successful
Timing dictionaries have duplicate free keys (true of every dictionary
a run produces), the aggregate mean looked up at any step name X equals
the arithmetic mean of Timing[X] over exactly those successes whose
Timing holds X, and is absent when no success holds X; and when every
job failed the batch tail returns the None sentinel before any mean is
computed. -/
theorem c7_aggregate_mean (outs : List Outcome)
    (h : ∀ o ∈ outs, keysNodup o = true) :
    (∀ x, lookupD (aggregateMeans outs) x =
      (if successTimes outs x = [] then none
       else some ((successTimes outs x).sum /
         ((successTimes outs x).length : Rat)))) ∧
    ((∀ o ∈ outs, o = .failure) → finishBatch outs = .retNone) := by
  constructor
  · intro x
    obtain ⟨ex, _⟩ := aggOuter_spec outs ([], []) h (fun k => rfl)
    obtain ⟨e1, e2⟩ := ex x
    rw [lookupD_means]
    show ((lookupD (aggregateRaw outs).1 x).map
      (fun v => v / ((lookupD (aggregateRaw outs).2 x).getD 1))) = _
    unfold aggregateRaw
    rw [e1, e2]
    by_cases hr : successTimes outs x = []
    · rw [if_pos hr, if_pos hr, if_pos hr]
      rfl
    · rw [if_neg hr, if_neg hr, if_neg hr]
      simp [lookupD]
  · intro hall
    unfold finishBatch
    rw [aggregateRaw_all_fail outs hall]
    rfl

/-- Claim C7 witness: the aggregation theorem applied to the concrete
batch [success {a: 2}, failure, success {a: 4, b: 1}], evaluated at
step name a, whose success times are [2, 4] with mean 3. -/
theorem c7_witness :
    (∀ o ∈ [Outcome.success [("a", 2)], Outcome.failure,
        Outcome.success [("a", 4), ("b", 1)]], keysNodup o = true) ∧
    lookupD (aggregateMeans [Outcome.success [("a", 2)], Outcome.failure,
        Outcome.success [("a", 4), ("b", 1)]]) "a" =
      (if successTimes [Outcome.success [("a", 2)], Outcome.failure,
          Outcome.success [("a", 4), ("b", 1)]] "a" = [] then none
       else some ((successTimes [Outcome.success [("a", 2)], Outcome.failure,
          Outcome.success [("a", 4), ("b", 1)]] "a").sum /
         ((successTimes [Outcome.success [("a", 2)], Outcome.failure,
          Outcome.success [("a", 4), ("b", 1)]] "a").length : Rat))) :=
  ⟨by decide,
   (c7_aggregate_mean [Outcome.success [("a", 2)], Outcome.failure,
      Outcome.success [("a", 4), ("b", 1)]] (by decide)).1 "a"⟩

/-! ## Claim C1: batch output list shape -/

theorem seqOpt_length {α β : Type} (f : α → Option β) :
    ∀ (xs : List α) (ys : List β),
    seqOpt f xs = some ys → ys.length = xs.length := by
  intro xs
  induction xs with
  | nil =>
      intro ys h
      unfold seqOpt at h
      injection h with h2
      rw [← h2]
      rfl
  | cons x xs ih =>
      intro ys h
      unfold seqOpt at h
      cases hf : f x with
      | none => rw [hf] at h; simp at h
      | some y =>
          cases hs : seqOpt f xs with
          | none => rw [hf, hs] at h; simp at h
          | some ys2 =>
              rw [hf, hs] at h
              injection h with h2
              rw [← h2, List.length_cons, List.length_cons, ih ys2 hs]

theorem seqOpt_get {α β : Type} (f : α → Option β) :
    ∀ (xs : List α) (ys : List β), seqOpt f xs = some ys →
    ∀ (i : Nat) (hi : i < xs.length) (hy : i < ys.length),
      f (xs.get ⟨i, hi⟩) = some (ys.get ⟨i, hy⟩) := by
  intro xs
  induction xs with
  | nil => intro ys h i hi hy; exact absurd hi (by simp)
  | cons x xs ih =>
      intro ys h i hi hy
      unfold seqOpt at h
      cases hf : f x with
      | none => rw [hf] at h; simp at h
      | some y =>
          cases hs : seqOpt f xs with
          | none => rw [hf, hs] at h; simp at h
          | some ys2 =>
              rw [hf, hs] at h
              injection h with h2
              subst h2
              cases i with
              | zero => simpa using hf
              | succ i =>
                  exact ih ys2 hs i (Nat.lt_of_succ_lt_succ hi)
                    (Nat.lt_of_succ_lt_succ hy)

theorem collectOk_length :
    ∀ (jres : List (PyResult Outcome)) (outs : List Outcome),
    collectOk jres = some outs → outs.length = jres.length := by
  intro jres
  induction jres with
  | nil =>
      intro outs h
      unfold collectOk at h
      injection h with h2
      rw [← h2]
      rfl
  | cons r rest ih =>
      intro outs h
      cases r with
      | exn => simp [collectOk] at h
      | ok o =>
          unfold collectOk at h
          cases hs : collectOk rest with
          | none => rw [hs] at h; simp at h
          | some outs2 =>
              rw [hs] at h
              injection h with h2
              rw [← h2, List.length_cons, List.length_cons, ih outs2 hs]

theorem collectOk_get :
    ∀ (jres : List (PyResult Outcome)) (outs : List Outcome),
    collectOk jres = some outs →
    ∀ (i : Nat) (hi : i < jres.length) (ho : i < outs.length),
      jres.get ⟨i, hi⟩ = .ok (outs.get ⟨i, ho⟩) := by
  intro jres
  induction jres with
  | nil => intro outs h i hi ho; exact absurd hi (by simp)
  | cons r rest ih =>
      intro outs h i hi ho
      cases r with
      | exn => simp [collectOk] at h
      | ok o =>
          unfold collectOk at h
          cases hs : collectOk rest with
          | none => rw [hs] at h; simp at h
          | some outs2 =>
              rw [hs] at h
              injection h with h2
              subst h2
              cases i with
              | zero => rfl
              | succ i =>
                  exact ih outs2 hs i (Nat.lt_of_succ_lt_succ hi)
                    (Nat.lt_of_succ_lt_succ ho)

/-- Claim C1 counterexample: a one image batch whose only job fails
(the loader yields a None payload) makes Process_List return the None
sentinel - the bare return on the all failed path - and not an outcome
list at all, contradicting the claim that a fully failed batch returns
an all-Failure outcome list of length N. -/
theorem c1_counterexample :
    Process_List [] defaultSteps (fun _ _ => Except.ok none) (fun _ => 0) 1
      [("image_file", .vlist [.str "a.fits"]), ("n_procs", .int 1)] =
      some .retNone ∧
    (match Process_List [] defaultSteps (fun _ _ => Except.ok none)
        (fun _ => 0) 1
        [("image_file", .vlist [.str "a.fits"]), ("n_procs", .int 1)] with
     | some (BatchRes.ret _ _) => False
     | _ => True) :=
  ⟨rfl, trivial⟩

/-- Claim C1 (amended): whenever the batch runs to completion - the
image_file entry is a list of N images, the per index options build
succeeds, the worker count option is an integer, every job returns
normally - Process_List hands the collected outcome list (in input
order, entry i being the outcome of the job on the per index options of
image i) to the aggregation tail; the outcome list has length N.  When
every outcome is the failure sentinel the tail returns None instead of
the outcome list, so the all-Failure list of the original claim is
never returned. -/
theorem c1_process_list (methods : Methods) (steps : SeqGraph)
    (ri : String → Options → Except Unit (Option Image)) (dur : Nat → Rat)
    (fuel : Nat) (options : Options) (imgs : List OptVal)
    (useOpts : List Options) (jres : List (PyResult Outcome))
    (outs : List Outcome) (p : Int)
    (h1 : lookupD options "image_file" = some (.vlist imgs))
    (h2 : buildUseOptions options imgs.length = some useOpts)
    (h3 : lookupD options "n_procs" = some (.int p))
    (h4 : seqOpt (Process_Image methods steps ri dur fuel) useOpts = some jres)
    (h5 : collectOk jres = some outs) :
    Process_List methods steps ri dur fuel options = some (finishBatch outs) ∧
    outs.length = imgs.length ∧
    (∀ (i : Nat) (hi : i < useOpts.length) (ho : i < outs.length),
      Process_Image methods steps ri dur fuel (useOpts.get ⟨i, hi⟩) =
        some (.ok (outs.get ⟨i, ho⟩))) ∧
    ((∀ o ∈ outs, o = .failure) → finishBatch outs = .retNone) := by
  have l1 : useOpts.length = imgs.length := by
    have hh := seqOpt_length _ _ _ h2
    simpa using hh
  have l2 : jres.length = useOpts.length := seqOpt_length _ _ _ h4
  have l3 : outs.length = jres.length := collectOk_length _ _ h5
  refine ⟨?_, by omega, ?_, ?_⟩
  · unfold Process_List
    simp only [h1, h2, h3, h4, h5]
  · intro i hi ho
    have hj : i < jres.length := by omega
    have hget := seqOpt_get _ _ _ h4 i hi hj
    rw [hget, collectOk_get _ _ h5 i hj ho]
  · intro hall
    unfold finishBatch
    rw [aggregateRaw_all_fail outs hall]
    rfl

/-- Claim C1 witness: the amended theorem applied to a concrete one
image batch whose job succeeds with one timer entry. -/
theorem c1_witness :
    Process_List [("s", fun d _ _ => Except.ok (.pair d []))]
      [("head", ["s"])] (fun _ _ => Except.ok (some [[1]])) (fun _ => 0) 2
      [("image_file", .vlist [.str "a.fits"]), ("n_procs", .int 1)] =
      some (finishBatch [Outcome.success [("s", 0)]]) ∧
    ([Outcome.success [("s", (0 : Rat))]]).length =
      ([OptVal.str "a.fits"]).length :=
  ⟨(c1_process_list [("s", fun d _ _ => Except.ok (.pair d []))]
      [("head", ["s"])] (fun _ _ => Except.ok (some [[1]])) (fun _ => 0) 2
      [("image_file", .vlist [.str "a.fits"]), ("n_procs", .int 1)]
      [.str "a.fits"]
      [[("image_file", .str "a.fits"), ("n_procs", .int 1)]]
      [.ok (.success [("s", 0)])] [.success [("s", 0)]] 1
      rfl rfl rfl rfl rfl).1,
   (c1_process_list [("s", fun d _ _ => Except.ok (.pair d []))]
      [("head", ["s"])] (fun _ _ => Except.ok (some [[1]])) (fun _ => 0) 2
      [("image_file", .vlist [.str "a.fits"]), ("n_procs", .int 1)]
      [.str "a.fits"]
      [[("image_file", .str "a.fits"), ("n_procs", .int 1)]]
      [.ok (.success [("s", 0)])] [.success [("s", 0)]] 1
      rfl rfl rfl rfl rfl).2.1⟩

/-- Claim C3 witness: the amended derivation theorem applied to the
concrete split of path/to/img.fits into the directory path/to, the stem
img and the extension fits, yielding the name /img. -/
theorem c3_witness :
    deriveName (String.mk ("path/to".data ++ '/' ::
      ("img".data ++ '.' :: "fits".data))) = String.mk ('/' :: "img".data) :=
  c3_derive_name "path/to".data "img".data "fits".data
    (by decide) (by decide) (by decide)
